import Mathlib

/-!
Verification of the dakara-server library search subsystem.

This file gives a shallow embedding, in Lean 4, of the query mini-language
parser of `library/query_language.py` (the module-level `split_remaining` and
`parse` functions, including the regular expression `LANGUAGE_MATCHER`,
embedded as a hand-rolled scanner with the exact leftmost-first, lazy/greedy
and alternation semantics of the Python `re` module on this pattern), and of
the predicate compilation performed by `SongListView.get_queryset` in
`library/views.py` (the construction of `query_list` / `query_list_many` of
Django `Q` objects and their application as filter passes).

Strings are modelled as `List Char`; Python truthiness of a string is
emptiness; `str.strip()` is `pyStrip`; `str.replace("\\", "")` is
`removeBackslashes`.
-/

/-- ASCII part of Python's whitespace set (used by `\s`, `str.strip`). -/
def pyIsSpace (c : Char) : Bool :=
  c = ' ' || c = '\t' || c = '\n' || c = '\r' || c = '\x0b' || c = '\x0c'

/-- Python `str.strip()`: drop whitespace from both ends. -/
def pyStrip (l : List Char) : List Char :=
  ((l.dropWhile pyIsSpace).reverse.dropWhile pyIsSpace).reverse

/-- Python `str.replace("\\", "")`: drop every backslash. -/
def removeBackslashes (l : List Char) : List Char :=
  l.filter (fun c => c ≠ '\\')

/-- Abbreviation turning a string literal into the character list we compute on. -/
def toL (s : String) : List Char := s.data

/-- `if current_expression: result.append(current_expression)`. -/
def pushTok (res : List (List Char)) (cur : List Char) : List (List Char) :=
  if cur.isEmpty then res else res ++ [cur]

/-- Loop body of `split_remaining` (query_language.py lines 12-44): state is
the remaining input, the accumulated `result`, the `current_expression`, the
`in_quotes` flag and the `previous_char`. -/
def srLoop : List Char → List (List Char) → List Char → Bool → Option Char →
    List (List Char)
  | [], res, cur, _, _ => pushTok res (pyStrip cur)
  | c :: rest, res, cur, inQ, prev =>
    if c = '"' then
      if inQ then
        srLoop rest (pushTok res cur) [] false (some c)
      else
        srLoop rest (pushTok res (pyStrip cur)) [] true (some c)
    else if c = ' ' ∧ inQ = false ∧ prev ≠ some '\\' then
      srLoop rest (pushTok res (pyStrip cur)) [] inQ (some c)
    else if c ≠ '\\' then
      srLoop rest res (cur ++ [c]) inQ (some c)
    else
      srLoop rest res cur inQ (some c)

/-- `split_remaining` (query_language.py lines 12-44): the free-text tokenizer. -/
def splitRemaining (s : List Char) : List (List Char) :=
  srLoop s [] [] false none

/-! ### The keyword matcher

`LANGUAGE_MATCHER = re.compile(r'\b(artist|work|title):\s?(?:""(.+?)""|"(.+?)"|((?:\\\s|\S)+))', re.I)`
(query_language.py line 9), embedded as a hand-rolled scanner with the exact
semantics of Python `re` on this pattern: leftmost match wins; the three value
alternatives are tried in order; `(.+?)` is lazy, matches at least one
character and never a newline; `(?:\\\s|\S)+` is greedy; `\s?` greedily
consumes at most one whitespace character; `\b` requires the previous
character (if any) not to be a word character, since the keyword starts with a
letter. -/

/-- The fixed `KEYWORDS` list (query_language.py lines 3-7). -/
inductive Keyword
  | artist
  | work
  | title
deriving DecidableEq

/-- The characters of a keyword, lowercase. -/
def kwChars : Keyword → List Char
  | .artist => toL "artist"
  | .work => toL "work"
  | .title => toL "title"

/-- Which of the three value capture groups matched: group 2 (`""(.+?)""`),
group 3 (`"(.+?)"`) or group 4 (`((?:\\\s|\S)+)`). Exactly one inner group of
the alternation captures per match. -/
inductive Capture
  | g2 (v : List Char)
  | g3 (v : List Char)
  | g4 (v : List Char)
deriving DecidableEq

/-- `\w` (ASCII part): the word characters relevant to `\b`. -/
def isWordChar (c : Char) : Bool := c.isAlphanum || c = '_'

/-- `\b` before the keyword: holds at the start of the string or after a
non-word character (the following character, a keyword letter, is a word
character whenever the keyword matches). -/
def wordBoundary : Option Char → Bool
  | none => true
  | some c => !isWordChar c

/-- Case-insensitive literal prefix match; returns the rest of the input. -/
def matchCI : List Char → List Char → Option (List Char)
  | [], s => some s
  | _ :: _, [] => none
  | p :: ps, c :: cs => if c.toLower = p then matchCI ps cs else none

/-- The keyword alternation `(artist|work|title)` followed by `:`; the three
keywords start with distinct letters, so trying them in order is exactly the
regex alternation. -/
def matchKeywordAt (s : List Char) : Option (Keyword × List Char) :=
  match matchCI (kwChars .artist) s with
  | some (':' :: rest) => some (.artist, rest)
  | _ =>
    match matchCI (kwChars .work) s with
    | some (':' :: rest) => some (.work, rest)
    | _ =>
      match matchCI (kwChars .title) s with
      | some (':' :: rest) => some (.title, rest)
      | _ => none

/-- Lazy `(.+?)` followed by `""`: consume at least one non-newline character,
checking for the doubled quote after each one; minimal match wins. Returns the
capture and the rest after the closing `""`. -/
def lazyUntil2 : List Char → List Char → Option (List Char × List Char)
  | [], _ => none
  | c :: rest, acc =>
    if c = '\n' then none
    else
      match rest with
      | '"' :: '"' :: rest2 => some (acc ++ [c], rest2)
      | _ => lazyUntil2 rest (acc ++ [c])

/-- Lazy `(.+?)` followed by a single `"`. -/
def lazyUntil1 : List Char → List Char → Option (List Char × List Char)
  | [], _ => none
  | c :: rest, acc =>
    if c = '\n' then none
    else
      match rest with
      | '"' :: rest2 => some (acc ++ [c], rest2)
      | _ => lazyUntil1 rest (acc ++ [c])

/-- Greedy `(?:\\\s|\S)*`: at each step prefer a backslash-escaped whitespace
pair, else a single non-whitespace character; stop otherwise. Returns the
consumed characters (verbatim, backslashes included) and the rest. -/
def plainRun : List Char → List Char × List Char
  | [] => ([], [])
  | c :: rest =>
    if c = '\\' then
      match rest with
      | c2 :: rest2 =>
        if pyIsSpace c2 then
          let x := plainRun rest2
          ('\\' :: c2 :: x.1, x.2)
        else
          let x := plainRun (c2 :: rest2)
          ('\\' :: x.1, x.2)
      | [] => (['\\'], [])
    else if pyIsSpace c then ([], c :: rest)
    else
      let x := plainRun rest
      (c :: x.1, x.2)

/-- First value alternative `""(.+?)""`. -/
def alt1 : List Char → Option (Capture × List Char)
  | '"' :: '"' :: rest => (lazyUntil2 rest []).map (fun x => (.g2 x.1, x.2))
  | _ => none

/-- Second value alternative `"(.+?)"`. -/
def alt2 : List Char → Option (Capture × List Char)
  | '"' :: rest => (lazyUntil1 rest []).map (fun x => (.g3 x.1, x.2))
  | _ => none

/-- Third value alternative `((?:\\\s|\S)+)`. -/
def alt3 (t : List Char) : Option (Capture × List Char) :=
  match plainRun t with
  | ([], _) => none
  | (c :: a, r) => some (.g4 (c :: a), r)

/-- The value alternation, in regex order. -/
def tryValue (t : List Char) : Option (Capture × List Char) :=
  match alt1 t with
  | some x => some x
  | none =>
    match alt2 t with
    | some x => some x
    | none => alt3 t

/-- `\s?` then the value alternation: greedily consume one whitespace
character first, falling back to the empty option on failure. -/
def matchValue : List Char → Option (Capture × List Char)
  | [] => none
  | c :: rest =>
    if pyIsSpace c then
      match tryValue rest with
      | some x => some x
      | none => tryValue (c :: rest)
    else tryValue (c :: rest)

/-- Attempt the whole pattern (minus `\b`) at the current position. -/
def matchAt (s : List Char) : Option (Keyword × Capture × List Char) :=
  match matchKeywordAt s with
  | none => none
  | some (k, rest) => (matchValue rest).map (fun x => (k, x.1, x.2))

/-- Leftmost-first search for the pattern, as `LANGUAGE_MATCHER.split(query,
maxsplit=1)` performs it: returns the text before the match, the keyword, the
capture and the text after the match, or `none` when the pattern does not
occur. `prev` is the character before the current position, for `\b`. -/
def findFirst : Option Char → List Char → Option (List Char × Keyword × Capture × List Char)
  | _, [] => none
  | prev, c :: rest =>
    if wordBoundary prev then
      match matchAt (c :: rest) with
      | some (k, cap, after) => some ([], k, cap, after)
      | none => (findFirst (some c) rest).map (fun x => (c :: x.1, x.2))
    else (findFirst (some c) rest).map (fun x => (c :: x.1, x.2))

/-! ### The parse loop (query_language.py lines 47-95) -/

/-- The dictionary literal built at query_language.py lines 60-68: one flat
record with the seven keys, each a list of strings. -/
structure ParseResult where
  artists : List (List Char)
  artists_exact : List (List Char)
  works : List (List Char)
  works_exact : List (List Char)
  titles : List (List Char)
  titles_exact : List (List Char)
  remaining : List (List Char)
deriving DecidableEq

/-- The initial result dictionary: every list empty. -/
def emptyParseResult : ParseResult := ⟨[], [], [], [], [], [], []⟩

/-- The dictionary as Python holds it: keys in insertion order
(query_language.py lines 60-68). -/
def dictOf (r : ParseResult) : List (String × List (List Char)) :=
  [("artists", r.artists), ("artists_exact", r.artists_exact),
   ("works", r.works), ("works_exact", r.works_exact),
   ("titles", r.titles), ("titles_exact", r.titles_exact),
   ("remaining", r.remaining)]

/-- `result.get(target).append(value)` for `target = keyword + "s"`. -/
def appendContains (k : Keyword) (v : List Char) (r : ParseResult) : ParseResult :=
  match k with
  | .artist => { r with artists := r.artists ++ [v] }
  | .work => { r with works := r.works ++ [v] }
  | .title => { r with titles := r.titles ++ [v] }

/-- `result.get(target + "_exact").append(value_exact)`. -/
def appendExact (k : Keyword) (v : List Char) (r : ParseResult) : ParseResult :=
  match k with
  | .artist => { r with artists_exact := r.artists_exact ++ [v] }
  | .work => { r with works_exact := r.works_exact ++ [v] }
  | .title => { r with titles_exact := r.titles_exact ++ [v] }

/-- The contains list of a keyword's category. -/
def containsField (k : Keyword) (r : ParseResult) : List (List Char) :=
  match k with
  | .artist => r.artists
  | .work => r.works
  | .title => r.titles

/-- The exact list of a keyword's category. -/
def exactField (k : Keyword) (r : ParseResult) : List (List Char) :=
  match k with
  | .artist => r.artists_exact
  | .work => r.works_exact
  | .title => r.titles_exact

/-- Outcome of `parse`: a result, the `ValueError("Inconsistency")` path, or
exhaustion of the fuel bounding the `while True` loop. -/
inductive ParseOut
  | ok (r : ParseResult)
  | valueError
  | outOfFuel
deriving DecidableEq

/-- `value_exact = (split[2] or '').strip()` (query_language.py line 80). -/
def iterVE : Capture → List Char
  | .g2 v => pyStrip v
  | _ => []

/-- `value = (split[3] or split[4] or '').replace("\\", "").strip()`
(query_language.py line 81). -/
def iterVC : Capture → List Char
  | .g2 _ => []
  | .g3 v => pyStrip (removeBackslashes v)
  | .g4 v => pyStrip (removeBackslashes v)

/-- `if remaining: result['remaining'].extend(split_remaining(remaining))`,
applied to the already-stripped before-text (query_language.py lines 83-84). -/
def extendRemaining (acc : ParseResult) (rem : List Char) : ParseResult :=
  match rem with
  | [] => acc
  | _ => { acc with remaining := acc.remaining ++ splitRemaining rem }

/-- `if query: result['remaining'].extend(split_remaining(query))` on loop
exit (query_language.py lines 73-74). -/
def extendTail (acc : ParseResult) (query : List Char) : ParseResult :=
  match query with
  | [] => acc
  | _ => { acc with remaining := acc.remaining ++ splitRemaining query }

/-- One `while True` iteration of `parse` (query_language.py lines 70-93),
with fuel. On each iteration the string is split at the first match; the
stripped before-text is tokenized into `remaining`; `value_exact` is the
stripped group 2, `value` is group 3 or else group 4 with all backslashes
removed then stripped; exactly one of the two non-empty selects the list
appended to, otherwise the `ValueError("Inconsistency")` is raised; the loop
continues on the stripped after-text. -/
def parseLoop : Nat → ParseResult → List Char → ParseOut
  | 0, _, _ => .outOfFuel
  | Nat.succ fuel, acc, query =>
    match findFirst none query with
    | none => .ok (extendTail acc query)
    | some (before, kw, cap, after) =>
      match iterVC cap, iterVE cap with
      | c :: cs, [] =>
        parseLoop fuel
          (appendContains kw (c :: cs) (extendRemaining acc (pyStrip before)))
          (pyStrip after)
      | [], e :: es =>
        parseLoop fuel
          (appendExact kw (e :: es) (extendRemaining acc (pyStrip before)))
          (pyStrip after)
      | _, _ => .valueError

/-- `parse` (query_language.py lines 47-95). The fuel `query.length + 1`
suffices, as proved below: each iteration strictly shrinks the string. -/
def parse (query : List Char) : ParseOut :=
  parseLoop (query.length + 1) emptyParseResult query

/-! ### The predicate compiler (views.py, `SongListView.get_queryset`)

`get_queryset` consumes a categorized query with per-category `contains` /
`exact` lists (`res["artist"]["contains"]`, ..., plus `res["work_type"]` as a
mapping from work-type query name to such a record, `res["remaining"]` and
`res["tag"]` as plain lists) and builds two lists of Django `Q` objects:
`query_list`, merged by `&=` into one conjunctive filter pass, and
`query_list_many`, each element applied as its own `.filter(...)` pass
(views.py lines 80-159). -/

/-- A Django field lookup as used in views.py: `__icontains`, `__iexact`, or
the default `__exact` (case-sensitive equality, as in `tags__name=tag` and
`works__work_type__query_name=query_name`). -/
inductive Lookup
  | icontains
  | iexact
  | exactCS
deriving DecidableEq

/-- One keyword-argument condition `path__lookup=value` of a `Q(...)` call. -/
structure Cond where
  path : List String
  lookup : Lookup
  value : String
deriving DecidableEq

/-- A Django `Q` expression tree: the empty `Q()`, a single condition, `&`
and `|` combinations. -/
inductive Qexp
  | empty
  | cond (c : Cond)
  | conj (a b : Qexp)
  | disj (a b : Qexp)
deriving DecidableEq

/-- Whether a `Q` expression is one atomic condition (a single keyword
argument), as every element of `query_list_many` is. -/
def isAtom : Qexp → Bool
  | .cond _ => true
  | _ => false

/-- A `{contains, exact}` record of a categorized query, as `get_queryset`
reads it. -/
structure ContainsExact where
  contains : List String
  exact : List String
deriving DecidableEq

/-- The categorized query consumed by `get_queryset` (views.py lines 83-149):
`artist`, `title`, `work` records, the `work_type` sub-mapping, the
`remaining` list and the `tag` list. -/
structure CategorizedQuery where
  artist : ContainsExact
  title : ContainsExact
  work : ContainsExact
  work_type : List (String × ContainsExact)
  remaining : List String
  tag : List String
deriving DecidableEq

/-- Shorthand for `Q(path__lookup=value)`. -/
def q1 (path : List String) (lk : Lookup) (v : String) : Qexp :=
  .cond ⟨path, lk, v⟩

/-- The OR-group built for one `remaining` term (views.py lines 136-145):
title, artist name, work title, work alternative title, version, detail and
detail_video, all `icontains`, combined left-associatively by `|`. -/
def orGroup (r : String) : Qexp :=
  .disj (.disj (.disj (.disj (.disj (.disj
    (q1 ["title"] .icontains r)
    (q1 ["artists", "name"] .icontains r))
    (q1 ["works", "title"] .icontains r))
    (q1 ["works", "alternative_title", "title"] .icontains r))
    (q1 ["version"] .icontains r))
    (q1 ["detail"] .icontains r))
    (q1 ["detail_video"] .icontains r)

/-- The `single` group for one work term: work title or alternative title. -/
def workGroup (lk : Lookup) (w : String) : Qexp :=
  .disj (q1 ["works", "title"] lk w)
    (q1 ["works", "alternative_title", "title"] lk w)

/-- The `single` group for one work-type-scoped term (views.py lines
108-127): the work-title-or-alternative match AND the work type query name. -/
def workTypeGroup (lk : Lookup) (queryName keyword : String) : Qexp :=
  .conj (workGroup lk keyword)
    (q1 ["works", "work_type", "query_name"] .exactCS queryName)

/-- `query_list` and `query_list_many` as `get_queryset` builds them
(views.py lines 80-149), in the order of the source's appends: artist terms
and then tag terms into `query_list_many`; title, work, work-type and
remaining terms into `query_list`. -/
def compileLists (res : CategorizedQuery) : List Qexp × List Qexp :=
  let qlm : List Qexp := []
  let ql : List Qexp := []
  let qlm := qlm ++ res.artist.contains.map (q1 ["artists", "name"] .icontains)
  let qlm := qlm ++ res.artist.exact.map (q1 ["artists", "name"] .iexact)
  let ql := ql ++ res.title.contains.map (q1 ["title"] .icontains)
  let ql := ql ++ res.title.exact.map (q1 ["title"] .iexact)
  let ql := ql ++ res.work.contains.map (workGroup .icontains)
  let ql := ql ++ res.work.exact.map (workGroup .iexact)
  let ql := ql ++ res.work_type.flatMap (fun wt =>
    wt.2.contains.map (workTypeGroup .icontains wt.1)
      ++ wt.2.exact.map (workTypeGroup .iexact wt.1))
  let ql := ql ++ res.remaining.map orGroup
  let qlm := qlm ++ res.tag.map (q1 ["tags", "name"] .exactCS)
  (ql, qlm)

/-- `query_list`: the groups merged into the single conjunctive pass. -/
def queryList (res : CategorizedQuery) : List Qexp := (compileLists res).1

/-- `query_list_many`: the groups applied each as an independent pass. -/
def queryListMany (res : CategorizedQuery) : List Qexp := (compileLists res).2

/-- `filter_query = Q(); for item in query_list: filter_query &= item`
(views.py lines 152-154). -/
def mergedSingle (res : CategorizedQuery) : Qexp :=
  (queryList res).foldl .conj .empty

/-- The sequence of `.filter(...)` passes applied to the store (views.py
lines 156-159): first the one merged conjunctive pass over `query_list`, then
one pass per element of `query_list_many`. -/
def filterPasses (res : CategorizedQuery) : List Qexp :=
  mergedSingle res :: queryListMany res

/-- The number of multi-valued terms of a categorized query: artist contains
terms, artist exact terms and tag terms. -/
def multiCount (res : CategorizedQuery) : Nat :=
  res.artist.contains.length + res.artist.exact.length + res.tag.length

/-- Modelled from the spec: the categorized query that the query-language
parser used by `get_queryset` (the class `QueryLanguageParser`, whose
definition with tag and work-type support is not part of the sources; only
its caller views.py is) returns for the input
`work:""Opening Theme"" artist:foo tag:favorite` — per the spec, one work
exact term "Opening Theme", one artist contains term "foo" and one tag term
"favorite". -/
def scenarioQuery : CategorizedQuery :=
  { artist := ⟨["foo"], []⟩
    title := ⟨[], []⟩
    work := ⟨[], ["Opening Theme"]⟩
    work_type := []
    remaining := []
    tag := ["favorite"] }

/-! ### Supporting lemmas -/

theorem length_pyStrip_le (l : List Char) : (pyStrip l).length ≤ l.length := by
  unfold pyStrip
  have h1 := (List.dropWhile_sublist (l := l) pyIsSpace).length_le
  have h2 := (List.dropWhile_sublist
    (l := (l.dropWhile pyIsSpace).reverse) pyIsSpace).length_le
  simp only [List.length_reverse] at *
  omega

theorem mem_pyStrip {c : Char} {l : List Char} (h : c ∈ pyStrip l) : c ∈ l := by
  unfold pyStrip at h
  rw [List.mem_reverse] at h
  have h2 := (List.dropWhile_sublist
    (l := (l.dropWhile pyIsSpace).reverse) pyIsSpace).mem h
  rw [List.mem_reverse] at h2
  exact (List.dropWhile_sublist (l := l) pyIsSpace).mem h2

theorem dropWhile_eq_self_of_not {l : List Char}
    (h : ∀ c ∈ l, pyIsSpace c = false) : l.dropWhile pyIsSpace = l := by
  cases l with
  | nil => rfl
  | cons c cs => simp [List.dropWhile_cons, h c (by simp)]

theorem pyStrip_eq_self {l : List Char}
    (h : ∀ c ∈ l, pyIsSpace c = false) : pyStrip l = l := by
  unfold pyStrip
  rw [dropWhile_eq_self_of_not h]
  rw [dropWhile_eq_self_of_not (fun c hc => h c (List.mem_reverse.mp hc))]
  exact List.reverse_reverse l

theorem matchCI_length {p s r : List Char} (h : matchCI p s = some r) :
    s.length = p.length + r.length := by
  induction p generalizing s with
  | nil =>
    cases s <;> simp_all [matchCI]
  | cons a ps ih =>
    cases s with
    | nil => simp [matchCI] at h
    | cons c cs =>
      simp only [matchCI] at h
      split at h
      · have := ih h
        simp [this]
        omega
      · exact absurd h (by simp)

theorem matchKeywordAt_length {s r : List Char} {k : Keyword}
    (h : matchKeywordAt s = some (k, r)) : r.length < s.length := by
  unfold matchKeywordAt at h
  split at h
  · rename_i rest heq
    injection h with h1
    injection h1 with _ h2
    subst h2
    have := matchCI_length heq
    simp [kwChars, toL] at this
    omega
  · split at h
    · rename_i rest heq
      injection h with h1
      injection h1 with _ h2
      subst h2
      have := matchCI_length heq
      simp [kwChars, toL] at this
      omega
    · split at h
      · rename_i rest heq
        injection h with h1
        injection h1 with _ h2
        subst h2
        have := matchCI_length heq
        simp [kwChars, toL] at this
        omega
      · exact absurd h (by simp)

theorem lazyUntil2_length {l acc v r : List Char}
    (h : lazyUntil2 l acc = some (v, r)) : r.length < l.length := by
  induction l generalizing acc with
  | nil => simp [lazyUntil2] at h
  | cons c rest ih =>
    simp only [lazyUntil2] at h
    split at h
    · exact absurd h (by simp)
    · split at h
      · injection h with h1
        injection h1 with _ h2
        subst h2
        simp
        omega
      · have := ih h
        simp
        omega

theorem lazyUntil1_length {l acc v r : List Char}
    (h : lazyUntil1 l acc = some (v, r)) : r.length < l.length := by
  induction l generalizing acc with
  | nil => simp [lazyUntil1] at h
  | cons c rest ih =>
    simp only [lazyUntil1] at h
    split at h
    · exact absurd h (by simp)
    · split at h
      · injection h with h1
        injection h1 with _ h2
        subst h2
        simp
        omega
      · have := ih h
        simp
        omega

theorem plainRun_bs_space {c2 : Char} {rest2 : List Char} (hsp : pyIsSpace c2 = true) :
    plainRun ('\\' :: c2 :: rest2) =
      ('\\' :: c2 :: (plainRun rest2).1, (plainRun rest2).2) := by
  rw [plainRun.eq_def]
  simp [hsp]

theorem plainRun_bs_nospace {c2 : Char} {rest2 : List Char} (hsp : pyIsSpace c2 = false) :
    plainRun ('\\' :: c2 :: rest2) =
      ('\\' :: (plainRun (c2 :: rest2)).1, (plainRun (c2 :: rest2)).2) := by
  rw [plainRun.eq_def]
  simp [hsp]

theorem plainRun_cons_space {c : Char} {rest : List Char} (hb : ¬c = '\\')
    (hsp : pyIsSpace c = true) : plainRun (c :: rest) = ([], c :: rest) := by
  rw [plainRun.eq_def]
  simp [hb, hsp]

theorem plainRun_cons_plain {c : Char} {rest : List Char} (hb : ¬c = '\\')
    (hsp : pyIsSpace c = false) :
    plainRun (c :: rest) = (c :: (plainRun rest).1, (plainRun rest).2) := by
  rw [plainRun.eq_def]
  simp [hb, hsp]

theorem plainRun_length : ∀ t : List Char, (plainRun t).1.length + (plainRun t).2.length = t.length
  | [] => by simp [plainRun]
  | c :: rest => by
    by_cases hb : c = '\\'
    · subst hb
      cases rest with
      | nil => simp [plainRun]
      | cons c2 rest2 =>
        cases hsp : pyIsSpace c2 with
        | true =>
          have h1 := plainRun_length rest2
          rw [plainRun_bs_space hsp]
          simp
          omega
        | false =>
          have h2 := plainRun_length (c2 :: rest2)
          rw [plainRun_bs_nospace hsp]
          simp at h2 ⊢
          omega
    · cases hsp : pyIsSpace c with
      | true =>
        rw [plainRun_cons_space hb hsp]
        simp
      | false =>
        have h1 := plainRun_length rest
        rw [plainRun_cons_plain hb hsp]
        simp
        omega

theorem alt1_length {t : List Char} {cap : Capture} {r : List Char}
    (h : alt1 t = some (cap, r)) : r.length < t.length := by
  unfold alt1 at h
  split at h
  · rename_i rest
    rw [Option.map_eq_some'] at h
    obtain ⟨⟨v, r2⟩, hl, he⟩ := h
    injection he with _ he2
    have := lazyUntil2_length hl
    simp_all
    omega
  · exact absurd h (by simp)

theorem alt2_length {t : List Char} {cap : Capture} {r : List Char}
    (h : alt2 t = some (cap, r)) : r.length < t.length := by
  unfold alt2 at h
  split at h
  · rename_i rest
    rw [Option.map_eq_some'] at h
    obtain ⟨⟨v, r2⟩, hl, he⟩ := h
    injection he with _ he2
    have := lazyUntil1_length hl
    simp_all
    omega
  · exact absurd h (by simp)

theorem alt3_length {t : List Char} {cap : Capture} {r : List Char}
    (h : alt3 t = some (cap, r)) : r.length < t.length := by
  unfold alt3 at h
  split at h
  · exact absurd h (by simp)
  · rename_i c a r2 heq
    injection h with h1
    injection h1 with _ h2
    subst h2
    have := plainRun_length t
    rw [heq] at this
    simp at this
    omega

theorem tryValue_length {t : List Char} {cap : Capture} {r : List Char}
    (h : tryValue t = some (cap, r)) : r.length < t.length := by
  unfold tryValue at h
  split at h
  · rename_i x h1
    injection h with h2
    subst h2
    exact alt1_length h1
  · split at h
    · rename_i x h2
      injection h with h3
      subst h3
      exact alt2_length h2
    · exact alt3_length h

theorem matchValue_length {t : List Char} {cap : Capture} {r : List Char}
    (h : matchValue t = some (cap, r)) : r.length < t.length := by
  cases t with
  | nil => simp [matchValue] at h
  | cons c rest =>
    simp only [matchValue] at h
    split at h
    · split at h
      · rename_i x h1
        injection h with h2
        subst h2
        have := tryValue_length h1
        simp
        omega
      · exact tryValue_length h
    · exact tryValue_length h

theorem matchAt_length {s : List Char} {k : Keyword} {cap : Capture} {a : List Char}
    (h : matchAt s = some (k, cap, a)) : a.length < s.length := by
  unfold matchAt at h
  split at h
  · exact absurd h (by simp)
  · rename_i k2 rest heq
    rw [Option.map_eq_some'] at h
    obtain ⟨⟨cap2, a2⟩, hmv, he⟩ := h
    injection he with _ he2
    injection he2 with _ he3
    have h1 := matchKeywordAt_length heq
    have h2 := matchValue_length hmv
    simp_all
    omega

theorem findFirst_length :
    ∀ (s : List Char) (prev : Option Char) (b : List Char) (k : Keyword)
      (cap : Capture) (a : List Char),
      findFirst prev s = some (b, k, cap, a) → a.length < s.length := by
  intro s
  induction s with
  | nil => intro prev b k cap a h; simp [findFirst] at h
  | cons c rest ih =>
    intro prev b k cap a h
    simp only [findFirst] at h
    split at h
    · split at h
      · rename_i k2 cap2 after2 heq
        injection h with h1
        injection h1 with _ h2
        injection h2 with _ h3
        injection h3 with _ h4
        subst h4
        exact matchAt_length heq
      · rw [Option.map_eq_some'] at h
        obtain ⟨⟨b2, k2, cap2, a2⟩, hff, he⟩ := h
        injection he with _ he2
        injection he2 with _ he3
        injection he3 with _ he4
        subst he4
        have := ih (some c) b2 k2 cap2 a2 hff
        simp
        omega
    · rw [Option.map_eq_some'] at h
      obtain ⟨⟨b2, k2, cap2, a2⟩, hff, he⟩ := h
      injection he with _ he2
      injection he2 with _ he3
      injection he3 with _ he4
      subst he4
      have := ih (some c) b2 k2 cap2 a2 hff
      simp
      omega

theorem parseLoop_no_outOfFuel :
    ∀ (fuel : Nat) (q : List Char) (acc : ParseResult), q.length < fuel →
      parseLoop fuel acc q ≠ .outOfFuel := by
  intro fuel
  induction fuel with
  | zero => intro q acc hq; omega
  | succ n ih =>
    intro q acc hq
    simp only [parseLoop]
    split
    · simp
    · rename_i before kw cap after heq
      have ha : after.length < q.length :=
        findFirst_length q none before kw cap after heq
      have ha2 : (pyStrip after).length ≤ after.length := length_pyStrip_le after
      split
      · exact ih _ _ (by omega)
      · exact ih _ _ (by omega)
      · simp

theorem containsField_extendRemaining (k : Keyword) (acc : ParseResult) (rem : List Char) :
    containsField k (extendRemaining acc rem) = containsField k acc := by
  cases rem <;> cases k <;> rfl

theorem exactField_extendRemaining (k : Keyword) (acc : ParseResult) (rem : List Char) :
    exactField k (extendRemaining acc rem) = exactField k acc := by
  cases rem <;> cases k <;> rfl

theorem containsField_extendTail (k : Keyword) (acc : ParseResult) (q : List Char) :
    containsField k (extendTail acc q) = containsField k acc := by
  cases q <;> cases k <;> rfl

theorem exactField_extendTail (k : Keyword) (acc : ParseResult) (q : List Char) :
    exactField k (extendTail acc q) = exactField k acc := by
  cases q <;> cases k <;> rfl

theorem mem_containsField_appendContains {k : Keyword} {x : List Char} {acc : ParseResult}
    (k2 : Keyword) (v : List Char) (h : x ∈ containsField k acc) :
    x ∈ containsField k (appendContains k2 v acc) := by
  cases k <;> cases k2 <;> simp_all [containsField, appendContains]

theorem mem_containsField_appendExact {k : Keyword} {x : List Char} {acc : ParseResult}
    (k2 : Keyword) (v : List Char) (h : x ∈ containsField k acc) :
    x ∈ containsField k (appendExact k2 v acc) := by
  cases k <;> cases k2 <;> simp_all [containsField, appendExact]

theorem mem_exactField_appendContains {k : Keyword} {x : List Char} {acc : ParseResult}
    (k2 : Keyword) (v : List Char) (h : x ∈ exactField k acc) :
    x ∈ exactField k (appendContains k2 v acc) := by
  cases k <;> cases k2 <;> simp_all [exactField, appendContains]

theorem mem_exactField_appendExact {k : Keyword} {x : List Char} {acc : ParseResult}
    (k2 : Keyword) (v : List Char) (h : x ∈ exactField k acc) :
    x ∈ exactField k (appendExact k2 v acc) := by
  cases k <;> cases k2 <;> simp_all [exactField, appendExact]

theorem self_mem_appendContains (k : Keyword) (v : List Char) (acc : ParseResult) :
    v ∈ containsField k (appendContains k v acc) := by
  cases k <;> simp [containsField, appendContains]

theorem self_mem_appendExact (k : Keyword) (v : List Char) (acc : ParseResult) :
    v ∈ exactField k (appendExact k v acc) := by
  cases k <;> simp [exactField, appendExact]

theorem parseLoop_mono :
    ∀ (fuel : Nat) (acc : ParseResult) (q : List Char) (r : ParseResult),
      parseLoop fuel acc q = .ok r →
      (∀ k x, x ∈ containsField k acc → x ∈ containsField k r) ∧
      (∀ k x, x ∈ exactField k acc → x ∈ exactField k r) := by
  intro fuel
  induction fuel with
  | zero => intro acc q r h; simp [parseLoop] at h
  | succ n ih =>
    intro acc q r h
    simp only [parseLoop] at h
    split at h
    · injection h with h1
      subst h1
      exact ⟨fun k x hx => by rw [containsField_extendTail]; exact hx,
             fun k x hx => by rw [exactField_extendTail]; exact hx⟩
    · rename_i before kw cap after heq
      split at h
      · rename_i c cs hvc hve
        have hrec := ih _ _ _ h
        refine ⟨fun k x hx => ?_, fun k x hx => ?_⟩
        · exact hrec.1 k x (mem_containsField_appendContains kw (c :: cs)
            (by rw [containsField_extendRemaining]; exact hx))
        · exact hrec.2 k x (mem_exactField_appendContains kw (c :: cs)
            (by rw [exactField_extendRemaining]; exact hx))
      · rename_i e es hvc hve
        have hrec := ih _ _ _ h
        refine ⟨fun k x hx => ?_, fun k x hx => ?_⟩
        · exact hrec.1 k x (mem_containsField_appendExact kw (e :: es)
            (by rw [containsField_extendRemaining]; exact hx))
        · exact hrec.2 k x (mem_exactField_appendExact kw (e :: es)
            (by rw [exactField_extendRemaining]; exact hx))
      · exact absurd h (by simp)

theorem mem_pushTok {t : List Char} {res : List (List Char)} {cur : List Char}
    (h : t ∈ pushTok res cur) : t ∈ res ∨ t = cur := by
  unfold pushTok at h
  split at h
  · exact Or.inl h
  · rw [List.mem_append] at h
    rcases h with h | h
    · exact Or.inl h
    · exact Or.inr (by simpa using h)

theorem srLoop_no_backslash :
    ∀ (l : List Char) (res : List (List Char)) (cur : List Char) (inQ : Bool)
      (prev : Option Char),
      (∀ t ∈ res, '\\' ∉ t) → '\\' ∉ cur →
      ∀ t ∈ srLoop l res cur inQ prev, '\\' ∉ t := by
  intro l
  induction l with
  | nil =>
    intro res cur inQ prev hres hcur t ht
    rcases mem_pushTok ht with h | h
    · exact hres t h
    · subst h
      exact fun hc => hcur (mem_pyStrip hc)
  | cons c rest ih =>
    intro res cur inQ prev hres hcur t ht
    simp only [srLoop] at ht
    split_ifs at ht with h1 h2 h3 h4
    · refine ih _ _ _ _ ?_ (by simp) t ht
      intro t2 ht2
      rcases mem_pushTok ht2 with h | h
      · exact hres t2 h
      · subst h; exact hcur
    · refine ih _ _ _ _ ?_ (by simp) t ht
      intro t2 ht2
      rcases mem_pushTok ht2 with h | h
      · exact hres t2 h
      · subst h
        exact fun hc => hcur (mem_pyStrip hc)
    · refine ih _ _ _ _ ?_ (by simp) t ht
      intro t2 ht2
      rcases mem_pushTok ht2 with h | h
      · exact hres t2 h
      · subst h
        exact fun hc => hcur (mem_pyStrip hc)
    · refine ih _ _ _ _ hres ?_ t ht
      intro hc
      rw [List.mem_append] at hc
      rcases hc with hc | hc
      · exact hcur hc
      · simp at hc
        exact h4 hc.symm
    · exact ih _ _ _ _ hres hcur t ht

theorem splitRemaining_no_backslash {s t : List Char}
    (h : t ∈ splitRemaining s) : '\\' ∉ t :=
  srLoop_no_backslash s [] [] false none (by simp) (by simp) t h

theorem srLoop_plain :
    ∀ (t : List Char) (res : List (List Char)) (cur : List Char) (inQ : Bool)
      (prev : Option Char),
      (∀ c ∈ t, ¬c = '"' ∧ ¬c = ' ' ∧ ¬c = '\\') →
      srLoop t res cur inQ prev = pushTok res (pyStrip (cur ++ t)) := by
  intro t
  induction t with
  | nil =>
    intro res cur inQ prev _
    simp [srLoop]
  | cons c rest ih =>
    intro res cur inQ prev hp
    have hc := hp c (by simp)
    simp only [srLoop]
    rw [if_neg hc.1, if_neg (fun hand => hc.2.1 hand.1), if_pos hc.2.2]
    rw [ih _ _ _ _ (fun c2 hc2 => hp c2 (by simp [hc2]))]
    simp

/-! ### Claim theorems -/

/-- C1: for every categorized query with at least two multi-valued terms
(artist contains/exact terms, tag terms), `get_queryset` applies each such
term as its own independent filter pass (`query_list_many` has exactly one
entry per multi-valued term, each a single atomic condition, never a
conjunction of two of them), while all single-valued groups are merged into
the one conjunctive pass that precedes them. -/
theorem artist_tag_terms_isolated_passes (res : CategorizedQuery)
    (h : 2 ≤ multiCount res) :
    2 ≤ (queryListMany res).length ∧
    (queryListMany res).length = multiCount res ∧
    (∀ g ∈ queryListMany res, isAtom g = true) ∧
    filterPasses res = mergedSingle res :: queryListMany res := by
  have hlen : (queryListMany res).length = multiCount res := by
    simp [queryListMany, compileLists, multiCount]
    omega
  refine ⟨by omega, hlen, ?_, rfl⟩
  intro g hg
  simp only [queryListMany, compileLists, List.nil_append, List.append_assoc,
    List.mem_append, List.mem_map] at hg
  rcases hg with ⟨a, _, rfl⟩ | ⟨a, _, rfl⟩ | ⟨a, _, rfl⟩ <;> rfl

/-- Witness for C1: a query with two artist contains terms produces at least
two independent multi passes. -/
theorem artist_tag_terms_isolated_passes_witness :
    2 ≤ (queryListMany ⟨⟨["a", "b"], []⟩, ⟨[], []⟩, ⟨[], []⟩, [], [], []⟩).length :=
  (artist_tag_terms_isolated_passes
    ⟨⟨["a", "b"], []⟩, ⟨[], []⟩, ⟨[], []⟩, [], [], []⟩ (by decide)).1

/-- C2 counterexample: for the categorized query with the single remaining
term "foo", the OR-group (which includes the multi-valued
`artists__name__icontains` arm) is not applied in its own pass:
`query_list_many` is empty and the group sits inside the one merged
conjunctive single pass, contradicting the claim that such a group is
treated as `multi` and never merged into the single-valued pass. -/
theorem remaining_group_not_isolated_cex :
    orGroup "foo" ∉
      queryListMany ⟨⟨[], []⟩, ⟨[], []⟩, ⟨[], []⟩, [], ["foo"], []⟩ ∧
    queryListMany ⟨⟨[], []⟩, ⟨[], []⟩, ⟨[], []⟩, [], ["foo"], []⟩ = [] ∧
    orGroup "foo" ∈ queryList ⟨⟨[], []⟩, ⟨[], []⟩, ⟨[], []⟩, [], ["foo"], []⟩ ∧
    filterPasses ⟨⟨[], []⟩, ⟨[], []⟩, ⟨[], []⟩, [], ["foo"], []⟩ =
      [Qexp.conj Qexp.empty (orGroup "foo")] := by decide

/-- C2 (amended): every remaining term contributes one OR-group spanning
title, artist name, work title, work alternative title, version, detail and
detail_video, but `get_queryset` appends that group to `query_list`, merging
it into the conjunctive single-valued pass; it contributes nothing to the
independent `query_list_many` passes. -/
theorem remaining_group_merged_into_single_pass (res : CategorizedQuery) :
    (∀ r ∈ res.remaining, orGroup r ∈ queryList res) ∧
    queryList res =
      queryList { res with remaining := [] } ++ res.remaining.map orGroup ∧
    queryListMany res = queryListMany { res with remaining := [] } := by
  refine ⟨?_, ?_, ?_⟩
  · intro r hr
    simp only [queryList, compileLists, List.append_assoc, List.mem_append]
    right
    right
    right
    right
    right
    right
    exact List.mem_map_of_mem orGroup hr
  · simp [queryList, compileLists]
  · simp [queryListMany, compileLists]

/-- Witness for C2 (amended): the remaining term "foo" lands in the merged
single pass list. -/
theorem remaining_group_merged_witness :
    orGroup "foo" ∈ queryList ⟨⟨[], []⟩, ⟨[], []⟩, ⟨[], []⟩, [], ["foo"], []⟩ :=
  (remaining_group_merged_into_single_pass _).1 "foo" (by decide)

/-- C3: the defensive `ValueError("Inconsistency")` branch of `parse` is in
fact reachable by a plain user input, contradicting the claim that it is
unreachable: on `artist:" "` the single-double-quoted value `" "` is captured
by group 3, stripping it yields the empty value, group 2 is also empty, and
the neither-populated branch raises. -/
theorem parse_inconsistency_reachable :
    parse (toL "artist:\" \"") = ParseOut.valueError := by decide

/-- C5 counterexample: for the end-to-end scenario query, the tag pass built
by `get_queryset` is `Q(tags__name=tag)` — the default case-sensitive `exact`
lookup — not the case-insensitive `iexact` comparison the claim states; no
`iexact` tag condition occurs in the plan. -/
theorem scenario_tag_not_iexact_cex :
    q1 ["tags", "name"] Lookup.iexact "favorite" ∉ queryListMany scenarioQuery ∧
    queryListMany scenarioQuery ≠
      [q1 ["artists", "name"] Lookup.icontains "foo",
       q1 ["tags", "name"] Lookup.iexact "favorite"] := by decide

/-- C5 (amended): compiling the categorized query of the scenario
`work:""Opening Theme"" artist:foo tag:favorite` yields exactly one
single-valued group — work title OR alternative title, iexact
"Opening Theme" — plus two independent multi passes: artist name icontains
"foo" and tag name compared with the default case-sensitive exact lookup
(`tags__name=`), not iexact. -/
theorem scenario_plan_tag_exact :
    queryList scenarioQuery = [workGroup Lookup.iexact "Opening Theme"] ∧
    queryListMany scenarioQuery =
      [q1 ["artists", "name"] Lookup.icontains "foo",
       q1 ["tags", "name"] Lookup.exactCS "favorite"] ∧
    filterPasses scenarioQuery =
      [Qexp.conj Qexp.empty (workGroup Lookup.iexact "Opening Theme"),
       q1 ["artists", "name"] Lookup.icontains "foo",
       q1 ["tags", "name"] Lookup.exactCS "favorite"] := by decide

/-- C6 counterexample: the mapping returned by `parse` is not a nested
mapping from category names to contains/exact records: it has no key
"artist" at all, and its key list is not the claimed category layout. -/
theorem parse_shape_not_nested_cex :
    parse (toL "") = ParseOut.ok emptyParseResult ∧
    "artist" ∉ (dictOf emptyParseResult).map Prod.fst ∧
    (dictOf emptyParseResult).map Prod.fst ≠
      ["artist", "work", "title", "remaining"] := by decide

/-- C6 (amended): for every input on which `parse` returns a result, the
returned mapping is flat, with the seven keys artists, artists_exact, works,
works_exact, titles, titles_exact and remaining in that insertion order, each
holding a list of strings. -/
theorem parse_returns_flat_mapping (q : List Char) (r : ParseResult)
    (_h : parse q = ParseOut.ok r) :
    (dictOf r).map Prod.fst =
      ["artists", "artists_exact", "works", "works_exact",
       "titles", "titles_exact", "remaining"] := rfl

/-- Witness for C6 (amended): the empty input yields a result with the seven
flat keys. -/
theorem parse_returns_flat_mapping_witness :
    (dictOf emptyParseResult).map Prod.fst =
      ["artists", "artists_exact", "works", "works_exact",
       "titles", "titles_exact", "remaining"] :=
  parse_returns_flat_mapping (toL "") emptyParseResult (by decide)

/-- C7: when the keyword pattern does not occur anywhere in the input,
`parse` returns the result with every category list empty and `remaining`
equal to `split_remaining` of the whole input. -/
theorem parse_no_keyword_all_remaining (q : List Char)
    (h : findFirst none q = none) :
    parse q = ParseOut.ok { emptyParseResult with remaining := splitRemaining q } := by
  unfold parse
  simp only [parseLoop, h]
  cases q with
  | nil => rfl
  | cons c cs => rfl

/-- Witness for C7: on "hello world" no keyword occurs and both tokens end up
in remaining. -/
theorem parse_no_keyword_witness :
    parse (toL "hello world") =
      ParseOut.ok { emptyParseResult with remaining := splitRemaining (toL "hello world") } :=
  parse_no_keyword_all_remaining (toL "hello world") (by decide)

/-- C10: double quotes do not shield keyword detection: on the input
`"artist:foo"` (quote characters included) `parse` still extracts an artist
term (the captured value keeps the trailing quote character) and leaves
nothing in remaining, even though the tokenizer alone would have kept the
quoted text as the single token `artist:foo`. -/
theorem quoted_keyword_still_extracted :
    parse (toL "\"artist:foo\"") =
      ParseOut.ok ⟨[toL "foo\""], [], [], [], [], [], []⟩ ∧
    splitRemaining (toL "\"artist:foo\"") = [toL "artist:foo"] := by decide

/-- C4: quote style determines the match mode. For every keyword match found
by the matcher: a group-2 capture (doubled-double-quoted value) whose
stripped value is non-empty is appended to the category's exact list; a
group-3 capture (single-double-quoted) or group-4 capture (unquoted), after
backslash removal and stripping, is appended to the contains list. In
particular `parse("artist:Foo title:\"Bar Baz\"")` yields artists contains
["Foo"] and titles contains ["Bar Baz"], not exact. -/
theorem quote_style_selects_match_mode :
    (∀ (q b : List Char) (kw : Keyword) (v after : List Char) (r : ParseResult),
        findFirst none q = some (b, kw, Capture.g2 v, after) → pyStrip v ≠ [] →
        parse q = ParseOut.ok r → pyStrip v ∈ exactField kw r) ∧
    (∀ (q b : List Char) (kw : Keyword) (v after : List Char) (r : ParseResult),
        findFirst none q = some (b, kw, Capture.g3 v, after) →
        pyStrip (removeBackslashes v) ≠ [] →
        parse q = ParseOut.ok r →
        pyStrip (removeBackslashes v) ∈ containsField kw r) ∧
    (∀ (q b : List Char) (kw : Keyword) (v after : List Char) (r : ParseResult),
        findFirst none q = some (b, kw, Capture.g4 v, after) →
        pyStrip (removeBackslashes v) ≠ [] →
        parse q = ParseOut.ok r →
        pyStrip (removeBackslashes v) ∈ containsField kw r) ∧
    parse (toL "artist:Foo title:\"Bar Baz\"") =
      ParseOut.ok ⟨[toL "Foo"], [], [], [], [toL "Bar Baz"], [], []⟩ := by
  refine ⟨?_, ?_, ?_, by decide⟩
  · intro q b kw v after r hf hne hok
    unfold parse at hok
    simp only [parseLoop, hf, iterVC, iterVE] at hok
    obtain ⟨e, es, hv⟩ := List.exists_cons_of_ne_nil hne
    rw [hv] at hok
    have := (parseLoop_mono _ _ _ _ hok).2 kw (e :: es)
      (self_mem_appendExact kw (e :: es) _)
    rw [hv]
    exact this
  · intro q b kw v after r hf hne hok
    unfold parse at hok
    simp only [parseLoop, hf, iterVC, iterVE] at hok
    obtain ⟨e, es, hv⟩ := List.exists_cons_of_ne_nil hne
    rw [hv] at hok
    have := (parseLoop_mono _ _ _ _ hok).1 kw (e :: es)
      (self_mem_appendContains kw (e :: es) _)
    rw [hv]
    exact this
  · intro q b kw v after r hf hne hok
    unfold parse at hok
    simp only [parseLoop, hf, iterVC, iterVE] at hok
    obtain ⟨e, es, hv⟩ := List.exists_cons_of_ne_nil hne
    rw [hv] at hok
    have := (parseLoop_mono _ _ _ _ hok).1 kw (e :: es)
      (self_mem_appendContains kw (e :: es) _)
    rw [hv]
    exact this

/-- Witness for C4: a doubled-double-quoted work value lands in the
works_exact list. -/
theorem quote_style_witness :
    pyStrip (toL "X") ∈ exactField Keyword.work ⟨[], [], [], [toL "X"], [], [], []⟩ :=
  quote_style_selects_match_mode.1 (toL "work:\"\"X\"\"") [] Keyword.work (toL "X") []
    ⟨[], [], [], [toL "X"], [], [], []⟩ (by decide) (by decide) (by decide)

/-- C8 counterexample: the tokenizer is not idempotent on every produced
token without internal whitespace and without quotes: the input `"<tab>a"`
(a tab inside a quoted region) produces the token `<tab>a`, which is
non-empty, quote-free, and whose stripped interior has no whitespace — yet
re-tokenizing it strips the leading tab and returns `a`, not the same token. -/
theorem tokenizer_idempotence_cex :
    toL "\ta" ∈ splitRemaining (toL "\"\ta\"") ∧
    toL "\ta" ≠ [] ∧
    (pyStrip (toL "\ta")).all (fun c => !pyIsSpace c) = true ∧
    (toL "\ta").all (fun c => c != '"') = true ∧
    splitRemaining (toL "\ta") ≠ [toL "\ta"] := by decide

/-- C8 (amended): re-tokenizing any non-empty token already produced by the
tokenizer that contains no whitespace at all (neither internal nor leading or
trailing) and no double-quote characters returns exactly that one token. The
production hypothesis matters: produced tokens never contain a backslash,
which the tokenizer would otherwise swallow. -/
theorem tokenizer_idempotent_on_plain_tokens (s t : List Char)
    (hmem : t ∈ splitRemaining s) (hne : t ≠ [])
    (hws : ∀ c ∈ t, pyIsSpace c = false) (hq : ∀ c ∈ t, ¬c = '"') :
    splitRemaining t = [t] := by
  have hbs : '\\' ∉ t := splitRemaining_no_backslash hmem
  have hplain : ∀ c ∈ t, ¬c = '"' ∧ ¬c = ' ' ∧ ¬c = '\\' := by
    intro c hc
    refine ⟨hq c hc, ?_, fun he => hbs (he ▸ hc)⟩
    intro he
    subst he
    have := hws ' ' hc
    simp [pyIsSpace] at this
  unfold splitRemaining
  rw [srLoop_plain t [] [] false none hplain]
  simp only [List.nil_append]
  rw [pyStrip_eq_self hws]
  unfold pushTok
  rw [if_neg (by simp [hne])]
  rfl

/-- Witness for C8 (amended): the produced token "foo" re-tokenizes to
itself. -/
theorem tokenizer_idempotent_witness : splitRemaining (toL "foo") = [toL "foo"] :=
  tokenizer_idempotent_on_plain_tokens (toL "foo bar") (toL "foo")
    (by decide) (by decide) (by decide) (by decide)

/-- C9: `parse` terminates within fuel bounded by the input length — the
`while True` loop never exhausts `length + 1` iterations — because on each
iteration only the first keyword match is consumed and the stripped text
after the match is strictly shorter than the string scanned in that
iteration. -/
theorem parse_terminates_bounded :
    (∀ q : List Char, parse q ≠ ParseOut.outOfFuel) ∧
    (∀ (prev : Option Char) (q b : List Char) (kw : Keyword) (cap : Capture)
        (after : List Char),
      findFirst prev q = some (b, kw, cap, after) →
      (pyStrip after).length < q.length) := by
  constructor
  · intro q
    exact parseLoop_no_outOfFuel (q.length + 1) q emptyParseResult (by omega)
  · intro prev q b kw cap after h
    exact Nat.lt_of_le_of_lt (length_pyStrip_le after)
      (findFirst_length q prev b kw cap after h)

/-- Witness for C9: on "artist:x" the matcher consumes the whole string and
the remainder is strictly shorter. -/
theorem parse_terminates_witness :
    (pyStrip ([] : List Char)).length < (toL "artist:x").length :=
  parse_terminates_bounded.2 none (toL "artist:x") [] Keyword.artist
    (Capture.g4 (toL "x")) [] (by decide)
